import Mathlib

/-!
Shallow embedding of `tonic/prototype/datasets/nmnist.py`.

The decoder `NMNISTFileReader._bin_to_array` reads a byte buffer, views it as
uint8 widened to uint32, takes the five numpy strided slices `raw_data[i::5]`,
extracts the fields, applies the timestamp-overflow correction
(`all_ts[overflow_index:] += 2**13` for every index with `y == 240`, in uint32
arithmetic, hence modulo `2 ^ 32`), discards the marker rows by fancy indexing
with `np.where(all_y != 240)[0]`, and assembles the surviving rows into a
structured array.  Numpy exceptions (shape-broadcast failures and
out-of-bounds fancy indexing, both reachable when the buffer length is not a
multiple of 5) are modelled with an `Except` result.
-/

/-- Numpy exceptions reachable in `_bin_to_array`: a shape-mismatch
`ValueError` from broadcasting, and an out-of-bounds `IndexError` from fancy
indexing. -/
inductive NPError where
  | broadcastError : NPError
  | indexError : NPError
deriving DecidableEq

/-- One decoded event record, the `(x, y, t, p)` row of the structured array. -/
structure Event where
  x : Nat
  y : Nat
  t : Nat
  p : Nat
deriving DecidableEq

/-- Elements at indices `0, 5, 10, ...` of a list: the core of the numpy
strided view `raw_data[i::5]`.  Written with a structural five-element
pattern so that it computes by kernel reduction; `strided5_cons` below gives
the step equation `strided5 (a :: rest) = a :: strided5 (rest.drop 4)`. -/
def strided5 : List Nat → List Nat
  | [] => []
  | a :: _ :: _ :: _ :: _ :: rest => a :: strided5 rest
  | a :: _ => [a]

/-- The numpy strided slice `raw_data[i::5]`. -/
def slice5 (l : List Nat) (i : Nat) : List Nat :=
  strided5 (l.drop i)

/-- Numpy elementwise binary operation on two 1-D arrays, with numpy shape
broadcasting: equal lengths act pointwise, a length-1 array is broadcast
against the other, and any other combination raises `ValueError`. -/
def broadcast2 (f : Nat → Nat → Nat) (a b : List Nat) : Except NPError (List Nat) :=
  if a.length = b.length then .ok (List.zipWith f a b)
  else if a.length = 1 then .ok (b.map (f (a.headD 0)))
  else if b.length = 1 then .ok (a.map (fun x => f x (b.headD 0)))
  else .error .broadcastError

/-- `all_x = raw_data[0::5]`. -/
def allX (raw : List Nat) : List Nat := slice5 raw 0

/-- `all_y = raw_data[1::5]`. -/
def allY (raw : List Nat) : List Nat := slice5 raw 1

/-- `all_p = (raw_data[2::5] & 128) >> 7` (bit 7 of the third byte). -/
def allP (raw : List Nat) : List Nat :=
  (slice5 raw 2).map (fun b => (b &&& 128) >>> 7)

/-- `all_ts = ((raw_data[2::5] & 127) << 16) | (raw_data[3::5] << 8) |
(raw_data[4::5])`: the two array-level `|` operations broadcast and may raise,
the scalar operations map over their array. -/
def allTs (raw : List Nat) : Except NPError (List Nat) :=
  match broadcast2 (· ||| ·)
      ((slice5 raw 2).map (fun b => (b &&& 127) <<< 16))
      ((slice5 raw 3).map (fun b => b <<< 8)) with
  | .error e => .error e
  | .ok ab => broadcast2 (· ||| ·) ab (slice5 raw 4)

/-- `np.where(arr == v)[0]`: the ascending indices where the entry equals `v`. -/
def whereEq (l : List Nat) (v : Nat) : List Nat :=
  (List.range l.length).filter (fun i => l.getD i 0 == v)

/-- `np.where(arr != v)[0]`: the ascending indices where the entry differs
from `v`. -/
def whereNe (l : List Nat) (v : Nat) : List Nat :=
  (List.range l.length).filter (fun i => l.getD i 0 != v)

/-- `all_ts[j:] += 2**13` on a uint32 array: every entry from index `j` on is
incremented by 8192 modulo `2 ^ 32`. -/
def overflowAdd (ts : List Nat) (j : Nat) : List Nat :=
  ts.take j ++ (ts.drop j).map (fun t => (t + 8192) % 2 ^ 32)

/-- The overflow loop: `for overflow_index in overflow_indices:
all_ts[overflow_index:] += time_increment`. -/
def processOverflow (ts : List Nat) (idxs : List Nat) : List Nat :=
  idxs.foldl overflowAdd ts

/-- Numpy fancy indexing `arr[idx]` with a nonnegative integer index array:
out-of-bounds entries raise `IndexError`. -/
def fancyIndex (a : List Nat) (idx : List Nat) : Except NPError (List Nat) :=
  if idx.all (fun i => i < a.length) then .ok (idx.map (fun i => a.getD i 0))
  else .error .indexError

/-- Modelled from the spec: `make_structured_array` lives in `tonic.io`,
outside the provided sources; per the spec (§6, output as an array of
structs), it assembles the four parallel field arrays into the records
`(x, y, t, p)`. -/
def makeStructuredArray (xs ys ts ps : List Nat) : List Event :=
  (List.zip xs (List.zip ys (List.zip ts ps))).map
    (fun q => { x := q.1, y := q.2.1, t := q.2.2.1, p := q.2.2.2 })

/-- `NMNISTFileReader._bin_to_array`: the full decoder on a byte buffer, with
the numpy evaluation order (the `all_ts` line runs before the overflow loop
and the fancy-indexing of the four arrays). -/
def binToArray (buf : List (Fin 256)) : Except NPError (List Event) :=
  let raw_data := buf.map Fin.val
  let all_y := allY raw_data
  let all_x := allX raw_data
  let all_p := allP raw_data
  match allTs raw_data with
  | .error e => .error e
  | .ok ts0 =>
    let all_ts := processOverflow ts0 (whereEq all_y 240)
    let td := whereNe all_y 240
    match fancyIndex all_x td with
    | .error e => .error e
    | .ok ex =>
      match fancyIndex all_y td with
      | .error e => .error e
      | .ok ey =>
        match fancyIndex all_ts td with
        | .error e => .error e
        | .ok et =>
          match fancyIndex all_p td with
          | .error e => .error e
          | .ok ep => .ok (makeStructuredArray ex ey et ep)

/-- The byte of the buffer at index `k`, as a natural number (0 past the
end; used only to state properties at in-range indices). -/
def byteAt (buf : List (Fin 256)) (k : Nat) : Nat :=
  (buf.getD k 0).val

/-- The raw 23-bit timestamp field of a 5-byte group with third, fourth and
fifth bytes `b2 b3 b4`. -/
def rawT (b2 b3 b4 : Nat) : Nat :=
  ((b2 &&& 127) <<< 16) ||| (b3 <<< 8) ||| b4

/-- The number of 5-byte groups of the buffer. -/
def numGroups (buf : List (Fin 256)) : Nat := buf.length / 5

/-- The number of overflow-marker groups (second byte 240) strictly before
group `g`. -/
def markersBefore (buf : List (Fin 256)) (g : Nat) : Nat :=
  (List.range g).countP (fun j => byteAt buf (5 * j + 1) == 240)

/-- The number of non-marker groups strictly before group `g`: the output
position of group `g` when it is itself a non-marker. -/
def nonMarkersBefore (buf : List (Fin 256)) (g : Nat) : Nat :=
  (List.range g).countP (fun j => byteAt buf (5 * j + 1) != 240)

/-- The number of overflow-marker groups of the whole buffer. -/
def numMarkers (buf : List (Fin 256)) : Nat :=
  (List.range (numGroups buf)).countP (fun g => byteAt buf (5 * g + 1) == 240)

/-- `NMNIST.sensor_size = (34, 34, 2)`. -/
def sensorSize : Nat × Nat × Nat := (34, 34, 2)

/-- `NMNIST._saccade_filter`: `events[events["t"] > int(1e5)]`. -/
def saccadeFilter (events : List Event) : List Event :=
  events.filter (fun e => 100000 < e.t)

/-- Python exceptions reachable in `NMNISTFileReader._get_target`: the
`IndexError` of `split("/")[-2]` on a short list and the `ValueError` of
`int(...)` on a non-numeric string.  The spec names both
`InvalidLabelFormat`. -/
inductive PyError where
  | indexError : PyError
  | valueError : PyError
deriving DecidableEq

/-- Python `str.split("/")`: split at every slash, keeping empty pieces; the
empty string yields `[[]]`. -/
def splitSlash : List Char → List (List Char)
  | [] => [[]]
  | c :: rest =>
    if c = '/' then [] :: splitSlash rest
    else
      match splitSlash rest with
      | s :: ss => (c :: s) :: ss
      | [] => [[c]]

/-- Accumulator loop for the digits (with single underscores between digits)
accepted by Python `int`. -/
def pyDigits (acc : Nat) : List Char → Option Nat
  | [] => some acc
  | '_' :: c :: rest =>
    if c.isDigit then pyDigits (acc * 10 + (c.toNat - 48)) rest else none
  | c :: rest =>
    if c.isDigit then pyDigits (acc * 10 + (c.toNat - 48)) rest else none

/-- Python `int(s)` on an ASCII decimal string: optional surrounding
whitespace, an optional sign, then a nonempty digit run in which single
underscores may separate digits. -/
def pythonInt (s : List Char) : Option Int :=
  let t := ((s.dropWhile Char.isWhitespace).reverse.dropWhile Char.isWhitespace).reverse
  match t with
  | '+' :: c :: rest =>
    if c.isDigit then (pyDigits (c.toNat - 48) rest).map Int.ofNat else none
  | '-' :: c :: rest =>
    if c.isDigit then (pyDigits (c.toNat - 48) rest).map (fun n => -(n : Int)) else none
  | c :: rest =>
    if c.isDigit then (pyDigits (c.toNat - 48) rest).map Int.ofNat else none
  | [] => none

/-- `NMNISTFileReader._get_target`: `int(fname.split("/")[-2])`.  The `[-2]`
index requires at least two segments (else `IndexError`); `int` requires the
segment to parse (else `ValueError`). -/
def getTarget (fname : String) : Except PyError Int :=
  let segs := splitSlash fname.toList
  if 2 ≤ segs.length then
    match pythonInt (segs.getD (segs.length - 2) []) with
    | some v => .ok v
    | none => .error .valueError
  else .error .indexError

/-! ### Derived characterizations used by the theorems -/

/-- The decoded event that a non-marker group `i` of the buffer contributes:
fields from the bytes of the group, with the aggregate timestamp correction in
uint32 arithmetic. -/
def eventOfGroup (buf : List (Fin 256)) (i : Nat) : Event :=
  { x := byteAt buf (5 * i)
    y := byteAt buf (5 * i + 1)
    t := (rawT (byteAt buf (5 * i + 2)) (byteAt buf (5 * i + 3)) (byteAt buf (5 * i + 4))
          + 8192 * markersBefore buf i) % 2 ^ 32
    p := (byteAt buf (5 * i + 2) &&& 128) >>> 7 }

/-- The surviving (non-marker) group indices of the buffer, in order:
`np.where(all_y != 240)[0]`. -/
def tdIdx (buf : List (Fin 256)) : List Nat :=
  whereNe (allY (buf.map Fin.val)) 240

/-! ### Lemmas on the strided slices -/

theorem strided5_nil : strided5 [] = [] := rfl

theorem strided5_cons (a : Nat) (rest : List Nat) :
    strided5 (a :: rest) = a :: strided5 (rest.drop 4) := by
  match rest with
  | [] => rfl
  | [b] => rfl
  | [b, c] => rfl
  | [b, c, d] => rfl
  | b :: c :: d :: e :: rest2 => rfl

/-- Induction along the stride: to prove a property of every list it is
enough to prove it for `[]` and to lift it from `rest.drop 4` to
`a :: rest`. -/
theorem strided5_induction (P : List Nat → Prop) (h0 : P [])
    (h1 : ∀ a rest, P (rest.drop 4) → P (a :: rest)) : ∀ l, P l := by
  have key : ∀ n (l : List Nat), l.length ≤ n → P l := by
    intro n
    induction n with
    | zero =>
      intro l hl
      match l with
      | [] => exact h0
      | a :: rest => simp at hl
    | succ m ih =>
      intro l hl
      match l with
      | [] => exact h0
      | a :: rest =>
        refine h1 a rest (ih _ ?_)
        simp only [List.length_drop]
        simp at hl
        omega
  exact fun l => key l.length l le_rfl

theorem strided5_length (l : List Nat) : (strided5 l).length = (l.length + 4) / 5 := by
  induction l using strided5_induction with
  | h0 => rw [strided5_nil]; rfl
  | h1 a rest ih =>
    rw [strided5_cons]
    simp only [List.length_cons, List.length_drop] at ih ⊢
    omega

theorem strided5_getElem (l : List Nat) (k : Nat) :
    (strided5 l)[k]? = l[5 * k]? := by
  induction l using strided5_induction generalizing k with
  | h0 => rw [strided5_nil]; simp
  | h1 a rest ih =>
    rw [strided5_cons]
    match k with
    | 0 => simp
    | k + 1 =>
      rw [List.getElem?_cons_succ, ih, List.getElem?_drop,
        show 5 * (k + 1) = (5 * k + 4) + 1 by ring, List.getElem?_cons_succ]
      congr 1
      omega

theorem slice5_getElem (l : List Nat) (i k : Nat) :
    (slice5 l i)[k]? = l[i + 5 * k]? := by
  rw [slice5, strided5_getElem, List.getElem?_drop]

theorem slice5_getD (l : List Nat) (i k : Nat) :
    (slice5 l i).getD k 0 = l.getD (i + 5 * k) 0 := by
  rw [List.getD_eq_getElem?_getD, List.getD_eq_getElem?_getD, slice5_getElem]

theorem slice5_length (l : List Nat) (i : Nat) :
    (slice5 l i).length = (l.length - i + 4) / 5 := by
  rw [slice5, strided5_length, List.length_drop]

theorem slice5_length_of_mod5 (l : List Nat) (i : Nat) (h : l.length % 5 ≤ 1)
    (hi1 : 1 ≤ i) (hi4 : i ≤ 4) : (slice5 l i).length = l.length / 5 := by
  rw [slice5_length]
  omega

theorem raw_getD (buf : List (Fin 256)) (k : Nat) :
    (buf.map Fin.val).getD k 0 = byteAt buf k := by
  rw [byteAt, show (0 : Nat) = (0 : Fin 256).val from rfl, List.getD_map]

theorem byteAt_lt (buf : List (Fin 256)) (k : Nat) : byteAt buf k < 256 :=
  (buf.getD k 0).isLt

/-- Composite: entry `k` of slice `i` of the widened buffer is the byte at
absolute position `i + 5 * k`. -/
theorem slice5_raw_getD (buf : List (Fin 256)) (i k : Nat) :
    (slice5 (buf.map Fin.val) i).getD k 0 = byteAt buf (5 * k + i) := by
  rw [slice5_getD, raw_getD]
  congr 1
  omega

/-! ### Lemmas on the elementwise operations -/

theorem broadcast2_of_length_eq (f : Nat → Nat → Nat) (a b : List Nat)
    (h : a.length = b.length) : broadcast2 f a b = .ok (List.zipWith f a b) := by
  simp [broadcast2, h]

theorem rawT_lt (b2 b3 b4 : Nat) (h3 : b3 < 256) (h4 : b4 < 256) :
    rawT b2 b3 b4 < 2 ^ 23 := by
  have h2 : (b2 &&& 127) <<< 16 < 2 ^ 23 := by
    rw [Nat.shiftLeft_eq]
    calc (b2 &&& 127) * 2 ^ 16 ≤ 127 * 2 ^ 16 :=
          Nat.mul_le_mul_right _ Nat.and_le_right
      _ < 2 ^ 23 := by norm_num
  have hb3 : b3 <<< 8 < 2 ^ 23 := by
    rw [Nat.shiftLeft_eq]
    calc b3 * 2 ^ 8 ≤ 255 * 2 ^ 8 :=
          Nat.mul_le_mul_right _ (by omega)
      _ < 2 ^ 23 := by norm_num
  exact Nat.or_lt_two_pow (Nat.or_lt_two_pow h2 hb3) (lt_trans h4 (by norm_num))

/-- For buffers whose length leaves remainder at most 1 modulo 5, the
`all_ts` line broadcasts three equal-length arrays and succeeds, entry `g`
holding the raw 23-bit field of group `g`. -/
theorem allTs_ok (buf : List (Fin 256)) (h : buf.length % 5 ≤ 1) :
    ∃ ts, allTs (buf.map Fin.val) = .ok ts ∧
      ts.length = buf.length / 5 ∧
      ∀ g, g < buf.length / 5 → ts.getD g 0 =
        rawT (byteAt buf (5 * g + 2)) (byteAt buf (5 * g + 3)) (byteAt buf (5 * g + 4)) := by
  set raw := buf.map Fin.val with hraw
  have hlen : raw.length = buf.length := List.length_map _ _
  have l2 : (slice5 raw 2).length = buf.length / 5 := by
    rw [slice5_length_of_mod5 raw 2 (by omega) (by omega) (by omega), hlen]
  have l3 : (slice5 raw 3).length = buf.length / 5 := by
    rw [slice5_length_of_mod5 raw 3 (by omega) (by omega) (by omega), hlen]
  have l4 : (slice5 raw 4).length = buf.length / 5 := by
    rw [slice5_length_of_mod5 raw 4 (by omega) (by omega) (by omega), hlen]
  have hall : allTs raw = .ok (List.zipWith (· ||| ·)
      (List.zipWith (· ||| ·) ((slice5 raw 2).map (fun b => (b &&& 127) <<< 16))
        ((slice5 raw 3).map (fun b => b <<< 8)))
      (slice5 raw 4)) := by
    rw [allTs, broadcast2_of_length_eq _ _ _ (by simp [l2, l3])]
    exact broadcast2_of_length_eq _ _ _ (by simp [l2, l3, l4])
  refine ⟨_, hall, by simp [l2, l3, l4], ?_⟩
  intro g hg
  have hts : g < (List.zipWith (· ||| ·)
      (List.zipWith (· ||| ·) ((slice5 raw 2).map (fun b => (b &&& 127) <<< 16))
        ((slice5 raw 3).map (fun b => b <<< 8)))
      (slice5 raw 4)).length := by
    simp only [List.length_zipWith, List.length_map, l2, l3, l4]
    omega
  rw [List.getD_eq_getElem _ _ hts, List.getElem_zipWith, List.getElem_zipWith,
    List.getElem_map, List.getElem_map]
  rw [← List.getD_eq_getElem (slice5 raw 2) 0, ← List.getD_eq_getElem (slice5 raw 3) 0,
    ← List.getD_eq_getElem (slice5 raw 4) 0]
  rw [hraw, slice5_raw_getD, slice5_raw_getD, slice5_raw_getD, rawT]

/-! ### Lemmas on the overflow-correction loop -/

theorem overflowAdd_length (ts : List Nat) (j : Nat) :
    (overflowAdd ts j).length = ts.length := by
  simp [overflowAdd]
  omega

theorem overflowAdd_getElem (ts : List Nat) (j i : Nat) :
    (overflowAdd ts j)[i]? =
      (ts[i]?).map (fun t => if j ≤ i then (t + 8192) % 2 ^ 32 else t) := by
  by_cases hi : i < ts.length
  · by_cases hj : i < j
    · rw [overflowAdd, List.getElem?_append_left (by simp [List.length_take]; omega),
        List.getElem?_take, if_pos hj, List.getElem?_eq_getElem hi]
      simp [Nat.not_le.mpr hj]
    · push_neg at hj
      rw [overflowAdd, List.getElem?_append_right (by simp [List.length_take]; omega)]
      have hjl : (ts.take j).length = j := by simp [List.length_take]; omega
      rw [hjl, List.getElem?_map, List.getElem?_drop, show j + (i - j) = i by omega,
        List.getElem?_eq_getElem hi]
      simp [hj]
  · have h1 : (overflowAdd ts j).length ≤ i := by rw [overflowAdd_length]; omega
    rw [List.getElem?_eq_none h1, List.getElem?_eq_none (by omega)]
    rfl

theorem processOverflow_cons (ts : List Nat) (j : Nat) (rest : List Nat) :
    processOverflow ts (j :: rest) = processOverflow (overflowAdd ts j) rest := rfl

theorem processOverflow_length (ts idxs : List Nat) :
    (processOverflow ts idxs).length = ts.length := by
  induction idxs generalizing ts with
  | nil => rfl
  | cons j rest ih => rw [processOverflow_cons, ih, overflowAdd_length]

theorem processOverflow_getElem (ts idxs : List Nat) (i : Nat)
    (hts : ∀ t ∈ ts, t < 2 ^ 32) :
    (processOverflow ts idxs)[i]? =
      (ts[i]?).map
        (fun t => (t + 8192 * idxs.countP (fun j => decide (j ≤ i))) % 2 ^ 32) := by
  induction idxs generalizing ts with
  | nil =>
    simp only [processOverflow, List.foldl_nil, List.countP_nil, Nat.mul_zero, Nat.add_zero]
    cases h : ts[i]? with
    | none => rfl
    | some t =>
      have hmem : t ∈ ts := List.getElem?_mem h
      exact congrArg some (Nat.mod_eq_of_lt (hts t hmem)).symm
  | cons j rest ih =>
    have hts2 : ∀ t ∈ overflowAdd ts j, t < 2 ^ 32 := by
      intro t ht
      rw [overflowAdd] at ht
      rcases List.mem_append.mp ht with hmem | hmem
      · exact hts t (List.mem_of_mem_take hmem)
      · obtain ⟨u, _, rfl⟩ := List.mem_map.mp hmem
        exact Nat.mod_lt _ (by norm_num)
    rw [processOverflow_cons, ih _ hts2, overflowAdd_getElem, Option.map_map]
    cases h : ts[i]? with
    | none => rfl
    | some t =>
      simp only [Option.map_some', Option.some.injEq, Function.comp]
      rw [List.countP_cons]
      by_cases hj : j ≤ i
      · simp only [hj, if_pos, decide_eq_true_eq, if_true, Nat.mod_add_mod]
        congr 1
        ring
      · simp only [hj, decide_eq_true_eq, if_false, if_neg hj, Nat.add_zero]

/-! ### Lemmas on `np.where` and fancy indexing -/

theorem mem_whereNe (l : List Nat) (v i : Nat) :
    i ∈ whereNe l v ↔ i < l.length ∧ l.getD i 0 ≠ v := by
  simp [whereNe, List.mem_filter, List.mem_range]

theorem mem_whereEq (l : List Nat) (v i : Nat) :
    i ∈ whereEq l v ↔ i < l.length ∧ l.getD i 0 = v := by
  simp [whereEq, List.mem_filter, List.mem_range]

theorem whereNe_pairwise (l : List Nat) (v : Nat) :
    (whereNe l v).Pairwise (· < ·) :=
  List.Pairwise.filter _ (List.pairwise_lt_range _)

theorem fancyIndex_ok (a idx : List Nat) (h : ∀ i ∈ idx, i < a.length) :
    fancyIndex a idx = .ok (idx.map (fun i => a.getD i 0)) := by
  rw [fancyIndex, if_pos]
  rw [List.all_eq_true]
  intro i hi
  exact decide_eq_true (h i hi)

theorem countP_range_le_and (q : Nat → Bool) (n i : Nat) (h : i < n) :
    (List.range n).countP (fun j => decide (j ≤ i) && q j) =
      (List.range (i + 1)).countP q := by
  rw [show n = (i + 1) + (n - (i + 1)) by omega, List.range_add, List.countP_append]
  have h1 : (List.range (i + 1)).countP (fun j => decide (j ≤ i) && q j) =
      (List.range (i + 1)).countP q := by
    apply List.countP_congr
    intro x hx
    rw [List.mem_range] at hx
    simp [show x ≤ i by omega]
  have h2 : (List.map (fun x => (i + 1) + x) (List.range (n - (i + 1)))).countP
      (fun j => decide (j ≤ i) && q j) = 0 := by
    rw [List.countP_map]
    apply List.countP_eq_zero.mpr
    intro x hx
    simp only [Function.comp, Bool.and_eq_true, decide_eq_true_eq, not_and]
    intro hc
    omega
  rw [h1, h2]
  omega

theorem makeStructuredArray_map (td : List Nat) (f1 f2 f3 f4 : Nat → Nat) :
    makeStructuredArray (td.map f1) (td.map f2) (td.map f3) (td.map f4) =
      td.map (fun i => { x := f1 i, y := f2 i, t := f3 i, p := f4 i }) := by
  rw [makeStructuredArray, List.zip_map', List.zip_map', List.zip_map', List.map_map]
  rfl

/-! ### Master characterization of the decoder on well-formed buffers -/

/-- On any buffer whose length leaves remainder 0 or 1 modulo 5, the decoder
succeeds and returns exactly the non-marker groups, in order, with byte-wise
fields and the compounded uint32 overflow correction. -/
theorem binToArray_char (buf : List (Fin 256)) (h : buf.length % 5 ≤ 1) :
    binToArray buf = .ok ((tdIdx buf).map (eventOfGroup buf)) := by
  have hlen : (buf.map Fin.val).length = buf.length := List.length_map _ _
  have hmod : (buf.map Fin.val).length % 5 ≤ 1 := by rw [hlen]; omega
  have ly : (allY (buf.map Fin.val)).length = buf.length / 5 := by
    rw [allY, slice5_length_of_mod5 _ 1 hmod (by omega) (by omega), hlen]
  have l2 : (slice5 (buf.map Fin.val) 2).length = buf.length / 5 := by
    rw [slice5_length_of_mod5 _ 2 hmod (by omega) (by omega), hlen]
  have lp : (allP (buf.map Fin.val)).length = buf.length / 5 := by
    rw [allP, List.length_map, l2]
  have lx : buf.length / 5 ≤ (allX (buf.map Fin.val)).length := by
    rw [allX, slice5_length, hlen]
    omega
  obtain ⟨ts, hts, lts, tsD⟩ := allTs_ok buf h
  have tsBound : ∀ t ∈ ts, t < 2 ^ 32 := by
    intro t ht
    obtain ⟨g, hg, rfl⟩ := List.mem_iff_getElem.mp ht
    rw [← List.getD_eq_getElem ts 0 hg, tsD g (by omega)]
    exact lt_trans (rawT_lt _ _ _ (byteAt_lt _ _) (byteAt_lt _ _)) (by norm_num)
  have tdlt : ∀ i ∈ whereNe (allY (buf.map Fin.val)) 240, i < buf.length / 5 := by
    intro i hi
    rcases (mem_whereNe _ _ _).mp hi with ⟨h1, _⟩
    rw [ly] at h1
    exact h1
  have lts2 : (processOverflow ts (whereEq (allY (buf.map Fin.val)) 240)).length =
      buf.length / 5 := by
    rw [processOverflow_length, lts]
  have hfx := fancyIndex_ok (allX (buf.map Fin.val))
    (whereNe (allY (buf.map Fin.val)) 240)
    (fun i hi => lt_of_lt_of_le (tdlt i hi) lx)
  have hfy := fancyIndex_ok (allY (buf.map Fin.val))
    (whereNe (allY (buf.map Fin.val)) 240)
    (fun i hi => by rw [ly]; exact tdlt i hi)
  have hft := fancyIndex_ok (processOverflow ts (whereEq (allY (buf.map Fin.val)) 240))
    (whereNe (allY (buf.map Fin.val)) 240)
    (fun i hi => by rw [lts2]; exact tdlt i hi)
  have hfp := fancyIndex_ok (allP (buf.map Fin.val))
    (whereNe (allY (buf.map Fin.val)) 240)
    (fun i hi => by rw [lp]; exact tdlt i hi)
  rw [tdIdx]
  simp only [binToArray, hts, hfx, hfy, hft, hfp, makeStructuredArray_map]
  congr 1
  apply List.map_congr_left
  intro i hi
  have hin : i < buf.length / 5 := tdlt i hi
  have hnm : byteAt buf (5 * i + 1) ≠ 240 := by
    rcases (mem_whereNe _ _ _).mp hi with ⟨-, h2⟩
    rw [allY, slice5_raw_getD] at h2
    exact h2
  have hx : (allX (buf.map Fin.val)).getD i 0 = byteAt buf (5 * i) := by
    rw [allX, slice5_raw_getD, Nat.add_zero]
  have hy : (allY (buf.map Fin.val)).getD i 0 = byteAt buf (5 * i + 1) := by
    rw [allY, slice5_raw_getD]
  have hp : (allP (buf.map Fin.val)).getD i 0 =
      (byteAt buf (5 * i + 2) &&& 128) >>> 7 := by
    have hb : i < (allP (buf.map Fin.val)).length := by rw [lp]; exact hin
    have hb2 : i < (slice5 (buf.map Fin.val) 2).length := by rw [l2]; exact hin
    rw [allP] at hb ⊢
    rw [List.getD_eq_getElem _ _ hb, List.getElem_map, ← List.getD_eq_getElem _ 0 hb2,
      slice5_raw_getD]
  have hcount : (whereEq (allY (buf.map Fin.val)) 240).countP (fun j => decide (j ≤ i)) =
      markersBefore buf i := by
    rw [whereEq, List.countP_filter, ly]
    have : (List.range (buf.length / 5)).countP
        (fun a => decide (a ≤ i) && ((allY (buf.map Fin.val)).getD a 0 == 240)) =
        (List.range (i + 1)).countP
        (fun a => (allY (buf.map Fin.val)).getD a 0 == 240) :=
      countP_range_le_and _ _ _ hin
    rw [this, List.range_succ, List.countP_append]
    have hz : List.countP (fun a => (allY (buf.map Fin.val)).getD a 0 == 240) [i] = 0 := by
      rw [List.countP_cons, List.countP_nil]
      simp only [hy, beq_iff_eq, if_neg hnm]
    rw [hz, Nat.add_zero, markersBefore]
    apply List.countP_congr
    intro x _
    rw [allY, slice5_raw_getD]
  have ht : (processOverflow ts (whereEq (allY (buf.map Fin.val)) 240)).getD i 0 =
      (rawT (byteAt buf (5 * i + 2)) (byteAt buf (5 * i + 3)) (byteAt buf (5 * i + 4))
        + 8192 * markersBefore buf i) % 2 ^ 32 := by
    have hb : i < ts.length := by rw [lts]; exact hin
    rw [List.getD_eq_getElem?_getD,
      processOverflow_getElem ts _ i tsBound,
      List.getElem?_eq_getElem hb]
    simp only [Option.map_some', Option.getD_some]
    rw [← List.getD_eq_getElem ts 0 hb, tsD i hin, hcount]
  rw [eventOfGroup, hx, hy, hp, ht]

/-! ### Positions in the filtered index list -/

theorem raw_getElem (buf : List (Fin 256)) (k : Nat) (hk : k < buf.length) :
    (buf.map Fin.val)[k]? = some (byteAt buf k) := by
  have hk2 : k < (buf.map Fin.val).length := by rw [List.length_map]; exact hk
  rw [List.getElem?_eq_getElem hk2, ← List.getD_eq_getElem _ 0 hk2, raw_getD]

theorem countP_range_prefix_le (q : Nat → Bool) (i m : Nat) (h : i ≤ m) :
    (List.range i).countP q ≤ (List.range m).countP q := by
  rw [show m = i + (m - i) by omega, List.range_add, List.countP_append]
  omega

theorem filter_range_getElem (q : Nat → Bool) (n i : Nat) (hi : i < n) (hq : q i = true) :
    ((List.range n).filter q)[(List.range i).countP q]? = some i := by
  induction n with
  | zero => omega
  | succ m ih =>
    rw [List.range_succ, List.filter_append]
    rcases Nat.lt_or_ge i m with him | him
    · rw [List.getElem?_append_left, ih him]
      rw [← List.countP_eq_length_filter]
      have h1 : (List.range (i + 1)).countP q ≤ (List.range m).countP q :=
        countP_range_prefix_le q (i + 1) m (by omega)
      have h2 : (List.range (i + 1)).countP q = (List.range i).countP q + 1 := by
        rw [List.range_succ, List.countP_append, List.countP_cons, List.countP_nil, hq]
        simp
      omega
    · have him2 : i = m := by omega
      subst him2
      rw [List.getElem?_append_right (by rw [← List.countP_eq_length_filter])]
      rw [← List.countP_eq_length_filter, Nat.sub_self,
        show List.filter q [i] = [i] from by rw [List.filter_cons, if_pos hq]; rfl]
      rfl

/-! ### Claim theorems -/

/-- C2: for every 5-byte group `[b0,b1,b2,b3,b4]` of a buffer whose length is
a multiple of 5, the decoder extracts `x = b0`, `y = b1`,
`p = (b2 & 0x80) >> 7`, and the raw field `((b2 & 0x7F) << 16) | (b3 << 8) |
b4`, which fits in 23 bits and is therefore not truncated by the uint32
widening. -/
theorem field_extraction_per_group (buf : List (Fin 256)) (h5 : buf.length % 5 = 0)
    (g : Nat) (hg : g < numGroups buf) :
    (allX (buf.map Fin.val))[g]? = some (byteAt buf (5 * g)) ∧
    (allY (buf.map Fin.val))[g]? = some (byteAt buf (5 * g + 1)) ∧
    (allP (buf.map Fin.val))[g]? = some ((byteAt buf (5 * g + 2) &&& 128) >>> 7) ∧
    (∃ ts, allTs (buf.map Fin.val) = .ok ts ∧
      ts[g]? = some (rawT (byteAt buf (5 * g + 2)) (byteAt buf (5 * g + 3))
        (byteAt buf (5 * g + 4)))) ∧
    rawT (byteAt buf (5 * g + 2)) (byteAt buf (5 * g + 3)) (byteAt buf (5 * g + 4))
      < 2 ^ 23 := by
  rw [numGroups] at hg
  refine ⟨?_, ?_, ?_, ?_, rawT_lt _ _ _ (byteAt_lt _ _) (byteAt_lt _ _)⟩
  · rw [allX, slice5_getElem, show 0 + 5 * g = 5 * g by omega, raw_getElem _ _ (by omega)]
  · rw [allY, slice5_getElem, show 1 + 5 * g = 5 * g + 1 by omega,
      raw_getElem _ _ (by omega)]
  · rw [allP, List.getElem?_map, slice5_getElem, show 2 + 5 * g = 5 * g + 2 by omega,
      raw_getElem _ _ (by omega)]
    rfl
  · obtain ⟨ts, hts, lts, tsD⟩ := allTs_ok buf (by omega)
    refine ⟨ts, hts, ?_⟩
    have hb : g < ts.length := by omega
    rw [List.getElem?_eq_getElem hb, ← List.getD_eq_getElem ts 0 hb, tsD g (by omega)]

/-- C2 witness: the extraction evaluated on the concrete 10-byte buffer
`[1,2,3,4,5,6,7,8,9,10]` at group 1. -/
theorem field_extraction_per_group_witness :
    (allX (([1, 2, 3, 4, 5, 6, 7, 8, 9, 10] : List (Fin 256)).map Fin.val))[1]? =
      some (byteAt [1, 2, 3, 4, 5, 6, 7, 8, 9, 10] (5 * 1)) ∧
    (allY (([1, 2, 3, 4, 5, 6, 7, 8, 9, 10] : List (Fin 256)).map Fin.val))[1]? =
      some (byteAt [1, 2, 3, 4, 5, 6, 7, 8, 9, 10] (5 * 1 + 1)) ∧
    (allP (([1, 2, 3, 4, 5, 6, 7, 8, 9, 10] : List (Fin 256)).map Fin.val))[1]? =
      some ((byteAt [1, 2, 3, 4, 5, 6, 7, 8, 9, 10] (5 * 1 + 2) &&& 128) >>> 7) ∧
    (∃ ts, allTs (([1, 2, 3, 4, 5, 6, 7, 8, 9, 10] : List (Fin 256)).map Fin.val) = .ok ts ∧
      ts[1]? = some (rawT (byteAt [1, 2, 3, 4, 5, 6, 7, 8, 9, 10] (5 * 1 + 2))
        (byteAt [1, 2, 3, 4, 5, 6, 7, 8, 9, 10] (5 * 1 + 3))
        (byteAt [1, 2, 3, 4, 5, 6, 7, 8, 9, 10] (5 * 1 + 4)))) ∧
    rawT (byteAt [1, 2, 3, 4, 5, 6, 7, 8, 9, 10] (5 * 1 + 2))
      (byteAt [1, 2, 3, 4, 5, 6, 7, 8, 9, 10] (5 * 1 + 3))
      (byteAt [1, 2, 3, 4, 5, 6, 7, 8, 9, 10] (5 * 1 + 4)) < 2 ^ 23 :=
  field_extraction_per_group [1, 2, 3, 4, 5, 6, 7, 8, 9, 10] (by decide) 1 (by decide)

/-- C1 (amended): for a buffer of length a multiple of 5, a non-marker group
`g` preceded by exactly `k` marker groups produces the output event at
position `nonMarkersBefore buf g` whose timestamp is the group's raw 23-bit
field plus `k * 8192`, reduced modulo `2 ^ 32` (the `all_ts` array is uint32,
so the correction wraps). -/
theorem overflow_offset_timestamp (buf : List (Fin 256)) (h5 : buf.length % 5 = 0)
    (g : Nat) (hg : g < numGroups buf) (hnm : byteAt buf (5 * g + 1) ≠ 240)
    (k : Nat) (hk : k = markersBefore buf g) :
    ∃ evs, binToArray buf = .ok evs ∧
      ∃ e, evs[nonMarkersBefore buf g]? = some e ∧
        e.t = (rawT (byteAt buf (5 * g + 2)) (byteAt buf (5 * g + 3))
                (byteAt buf (5 * g + 4)) + k * 8192) % 2 ^ 32 := by
  rw [numGroups] at hg
  refine ⟨_, binToArray_char buf (by omega), eventOfGroup buf g, ?_, ?_⟩
  · rw [List.getElem?_map]
    have hlen : (buf.map Fin.val).length = buf.length := List.length_map _ _
    have ly : (allY (buf.map Fin.val)).length = buf.length / 5 := by
      rw [allY, slice5_length_of_mod5 _ 1 (by omega) (by omega) (by omega), hlen]
    have hyD : ∀ j, (allY (buf.map Fin.val)).getD j 0 = byteAt buf (5 * j + 1) := by
      intro j
      rw [allY, slice5_raw_getD]
    have hpos : nonMarkersBefore buf g =
        (List.range g).countP (fun j => (allY (buf.map Fin.val)).getD j 0 != 240) := by
      rw [nonMarkersBefore]
      apply List.countP_congr
      intro x _
      rw [hyD]
    rw [tdIdx, whereNe, ly, hpos]
    rw [filter_range_getElem _ _ _ hg (by rw [bne_iff_ne, hyD]; exact hnm)]
    rfl
  · rw [eventOfGroup, hk, Nat.mul_comm 8192 (markersBefore buf g)]

/-- C1 witness: the spec scenario plus polarity: buffer of groups
`(1,2,p=0,t=5)`, marker, `(3,4,p=1,t=10)`; the third group is preceded by
`k = 1` marker and its output event (at position 1) has
`t = (10 + 1 * 8192) % 2 ^ 32 = 8202`. -/
theorem overflow_offset_timestamp_witness :
    ∃ evs, binToArray
        ([1, 2, 0, 0, 5, 0, 240, 0, 0, 0, 3, 4, 128, 0, 10] : List (Fin 256)) = .ok evs ∧
      ∃ e, evs[nonMarkersBefore [1, 2, 0, 0, 5, 0, 240, 0, 0, 0, 3, 4, 128, 0, 10] 2]? =
          some e ∧
        e.t = (rawT (byteAt [1, 2, 0, 0, 5, 0, 240, 0, 0, 0, 3, 4, 128, 0, 10] (5 * 2 + 2))
                (byteAt [1, 2, 0, 0, 5, 0, 240, 0, 0, 0, 3, 4, 128, 0, 10] (5 * 2 + 3))
                (byteAt [1, 2, 0, 0, 5, 0, 240, 0, 0, 0, 3, 4, 128, 0, 10] (5 * 2 + 4))
              + 1 * 8192) % 2 ^ 32 :=
  overflow_offset_timestamp [1, 2, 0, 0, 5, 0, 240, 0, 0, 0, 3, 4, 128, 0, 10]
    (by decide) 2 (by decide) (by decide) 1 (by decide)

/-- C3: a buffer of length a multiple of 5 with no marker group decodes to
exactly `len / 5` events in group order, each with the raw 23-bit field as
timestamp (the empty buffer is the instance `numGroups = 0`, yielding `[]`). -/
theorem no_marker_decode (buf : List (Fin 256)) (h5 : buf.length % 5 = 0)
    (hnm : ∀ g, g < numGroups buf → byteAt buf (5 * g + 1) ≠ 240) :
    ∃ evs, binToArray buf = .ok evs ∧ evs.length = numGroups buf ∧
      ∀ g, g < numGroups buf →
        evs[g]? = some
          { x := byteAt buf (5 * g)
            y := byteAt buf (5 * g + 1)
            t := rawT (byteAt buf (5 * g + 2)) (byteAt buf (5 * g + 3))
                  (byteAt buf (5 * g + 4))
            p := (byteAt buf (5 * g + 2) &&& 128) >>> 7 } := by
  rw [numGroups] at hnm ⊢
  have hlen : (buf.map Fin.val).length = buf.length := List.length_map _ _
  have ly : (allY (buf.map Fin.val)).length = buf.length / 5 := by
    rw [allY, slice5_length_of_mod5 _ 1 (by omega) (by omega) (by omega), hlen]
  have hyD : ∀ j, (allY (buf.map Fin.val)).getD j 0 = byteAt buf (5 * j + 1) := by
    intro j
    rw [allY, slice5_raw_getD]
  have htd : tdIdx buf = List.range (buf.length / 5) := by
    rw [tdIdx, whereNe, ly]
    apply List.filter_eq_self.mpr
    intro a ha
    rw [List.mem_range] at ha
    rw [bne_iff_ne, hyD]
    exact hnm a ha
  refine ⟨_, binToArray_char buf (by omega), ?_, ?_⟩
  · rw [htd, List.length_map, List.length_range]
  · intro g hgn
    rw [htd, List.getElem?_map, List.getElem?_range hgn]
    simp only [Option.map_some']
    have hmz : markersBefore buf g = 0 := by
      rw [markersBefore]
      apply List.countP_eq_zero.mpr
      intro j hj
      rw [List.mem_range] at hj
      simp [hnm j (by omega)]
    rw [eventOfGroup, hmz]
    have hlt : rawT (byteAt buf (5 * g + 2)) (byteAt buf (5 * g + 3))
        (byteAt buf (5 * g + 4)) < 2 ^ 32 :=
      lt_trans (rawT_lt _ _ _ (byteAt_lt _ _) (byteAt_lt _ _)) (by norm_num)
    simp only [Nat.mul_zero, Nat.add_zero, Nat.mod_eq_of_lt hlt]

/-- C3 witness: the empty buffer decodes to the empty event sequence (zero
groups), discharging the claim's empty-buffer scenario. -/
theorem no_marker_decode_witness :
    ∃ evs, binToArray ([] : List (Fin 256)) = .ok evs ∧ evs.length = numGroups [] ∧
      ∀ g, g < numGroups ([] : List (Fin 256)) →
        evs[g]? = some
          { x := byteAt [] (5 * g)
            y := byteAt [] (5 * g + 1)
            t := rawT (byteAt [] (5 * g + 2)) (byteAt [] (5 * g + 3)) (byteAt [] (5 * g + 4))
            p := (byteAt [] (5 * g + 2) &&& 128) >>> 7 } :=
  no_marker_decode [] (by decide) (by intro g hg; simp [numGroups] at hg)

/-- C4: on a buffer of length a multiple of 5, the decoder yields exactly
`numGroups - numMarkers` events and no output event has `y = 240`. -/
theorem marker_removal_count (buf : List (Fin 256)) (h5 : buf.length % 5 = 0) :
    ∃ evs, binToArray buf = .ok evs ∧
      evs.length = numGroups buf - numMarkers buf ∧
      ∀ e ∈ evs, e.y ≠ 240 := by
  have hlen : (buf.map Fin.val).length = buf.length := List.length_map _ _
  have ly : (allY (buf.map Fin.val)).length = buf.length / 5 := by
    rw [allY, slice5_length_of_mod5 _ 1 (by omega) (by omega) (by omega), hlen]
  have hyD : ∀ j, (allY (buf.map Fin.val)).getD j 0 = byteAt buf (5 * j + 1) := by
    intro j
    rw [allY, slice5_raw_getD]
  refine ⟨_, binToArray_char buf (by omega), ?_, ?_⟩
  · rw [List.length_map, tdIdx, whereNe, ly, ← List.countP_eq_length_filter]
    have hsplit := List.length_eq_countP_add_countP
      (fun j => byteAt buf (5 * j + 1) == 240) (List.range (buf.length / 5))
    rw [List.length_range] at hsplit
    have h1 : (List.range (buf.length / 5)).countP
        (fun i => (allY (buf.map Fin.val)).getD i 0 != 240) =
        (List.range (buf.length / 5)).countP
        (fun j => decide ¬(byteAt buf (5 * j + 1) == 240) = true) := by
      apply List.countP_congr
      intro x _
      rw [hyD]
      simp
    rw [h1, numGroups, numMarkers, numGroups]
    omega
  · intro e he
    rw [List.mem_map] at he
    obtain ⟨i, hi, rfl⟩ := he
    rw [tdIdx] at hi
    rcases (mem_whereNe _ _ _).mp hi with ⟨-, h2⟩
    rw [hyD] at h2
    rw [eventOfGroup]
    exact h2

/-- C4 witness: the three-group buffer with a middle marker has
`3 - 1 = 2` output events, none with `y = 240`. -/
theorem marker_removal_count_witness :
    ∃ evs, binToArray
        ([1, 2, 0, 0, 5, 0, 240, 0, 0, 0, 3, 4, 128, 0, 10] : List (Fin 256)) = .ok evs ∧
      evs.length = numGroups [1, 2, 0, 0, 5, 0, 240, 0, 0, 0, 3, 4, 128, 0, 10]
        - numMarkers [1, 2, 0, 0, 5, 0, 240, 0, 0, 0, 3, 4, 128, 0, 10] ∧
      ∀ e ∈ evs, e.y ≠ 240 :=
  marker_removal_count [1, 2, 0, 0, 5, 0, 240, 0, 0, 0, 3, 4, 128, 0, 10] (by decide)

/-! ### A marker-heavy buffer that wraps the uint32 timestamp correction -/

/-- `K` overflow-marker groups followed by a single all-zero non-marker
group. -/
def markerRun (K : Nat) : List (Fin 256) :=
  (List.replicate K ([0, 240, 0, 0, 0] : List (Fin 256))).flatten
    ++ ([0, 0, 0, 0, 0] : List (Fin 256))

theorem markerRun_succ (K : Nat) :
    markerRun (K + 1) = ([0, 240, 0, 0, 0] : List (Fin 256)) ++ markerRun K := by
  rw [markerRun, markerRun, List.replicate_succ, List.flatten_cons, List.append_assoc]

theorem markerRun_length (K : Nat) : (markerRun K).length = 5 * K + 5 := by
  induction K with
  | zero => rfl
  | succ m ih =>
    rw [markerRun_succ, List.length_append, ih]
    simp
    omega

theorem markerRun_getD_marker (K j i : Nat) (hj : j < K) (hi : i < 5) :
    (markerRun K).getD (5 * j + i) 0 = ([0, 240, 0, 0, 0] : List (Fin 256)).getD i 0 := by
  induction K generalizing j with
  | zero => omega
  | succ m ih =>
    rw [markerRun_succ]
    match j with
    | 0 =>
      rw [Nat.mul_zero, Nat.zero_add]
      exact List.getD_append _ _ _ _ (by simpa using hi)
    | j + 1 =>
      rw [List.getD_append_right _ _ _ _ (by simp; omega)]
      have : 5 * (j + 1) + i - ([0, 240, 0, 0, 0] : List (Fin 256)).length =
          5 * j + i := by
        simp
        omega
      rw [this, ih j (by omega)]

theorem markerRun_getD_last (K i : Nat) :
    (markerRun K).getD (5 * K + i) 0 = ([0, 0, 0, 0, 0] : List (Fin 256)).getD i 0 := by
  induction K with
  | zero =>
    rw [show markerRun 0 = ([0, 0, 0, 0, 0] : List (Fin 256)) from rfl]
    rw [Nat.mul_zero, Nat.zero_add]
  | succ m ih =>
    rw [markerRun_succ, List.getD_append_right _ _ _ _ (by simp; omega)]
    have : 5 * (m + 1) + i - ([0, 240, 0, 0, 0] : List (Fin 256)).length = 5 * m + i := by
      simp
      omega
    rw [this, ih]

theorem byteAt_markerRun_marker (K j : Nat) (hj : j < K) :
    byteAt (markerRun K) (5 * j + 1) = 240 := by
  rw [byteAt, markerRun_getD_marker K j 1 hj (by omega)]
  rfl

theorem byteAt_markerRun_last (K i : Nat) :
    byteAt (markerRun K) (5 * K + i) = 0 := by
  rw [byteAt, markerRun_getD_last]
  match i with
  | 0 => rfl
  | 1 => rfl
  | 2 => rfl
  | 3 => rfl
  | 4 => rfl
  | n + 5 => rfl

theorem markersBefore_markerRun (K : Nat) : markersBefore (markerRun K) K = K := by
  rw [markersBefore]
  rw [List.countP_eq_length.mpr]
  · exact List.length_range K
  · intro j hj
    rw [List.mem_range] at hj
    rw [byteAt_markerRun_marker K j hj]
    rfl

/-- Decoding `markerRun K`: the single non-marker group survives with
timestamp `(8192 * K) % 2 ^ 32` (raw field 0, `K` markers before it). -/
theorem markerRun_decode (K : Nat) :
    binToArray (markerRun K) = .ok [{ x := 0, y := 0, t := (8192 * K) % 2 ^ 32, p := 0 }] := by
  have hlen5 : (markerRun K).length = 5 * K + 5 := markerRun_length K
  have hlenmap : ((markerRun K).map Fin.val).length = (markerRun K).length :=
    List.length_map _ _
  have ly : (allY ((markerRun K).map Fin.val)).length = (markerRun K).length / 5 := by
    rw [allY, slice5_length_of_mod5 _ 1 (by omega) (by omega) (by omega), hlenmap]
  have hyD : ∀ j, (allY ((markerRun K).map Fin.val)).getD j 0 =
      byteAt (markerRun K) (5 * j + 1) := by
    intro j
    rw [allY, slice5_raw_getD]
  have htd : tdIdx (markerRun K) = [K] := by
    rw [tdIdx, whereNe, ly, show (markerRun K).length / 5 = K + 1 by omega,
      List.range_succ, List.filter_append]
    have h1 : (List.range K).filter
        (fun i => (allY ((markerRun K).map Fin.val)).getD i 0 != 240) = [] := by
      apply List.filter_eq_nil_iff.mpr
      intro a ha
      rw [List.mem_range] at ha
      rw [bne_iff_ne, hyD, byteAt_markerRun_marker K a ha]
      simp
    have h2 : ([K] : List Nat).filter
        (fun i => (allY ((markerRun K).map Fin.val)).getD i 0 != 240) = [K] := by
      rw [List.filter_cons, if_pos]
      · rfl
      · rw [bne_iff_ne, hyD, show 5 * K + 1 = 5 * K + 1 from rfl,
          byteAt_markerRun_last K 1]
        omega
    rw [h1, h2, List.nil_append]
  rw [binToArray_char _ (by omega), htd, List.map_cons, List.map_nil]
  have hev : eventOfGroup (markerRun K) K =
      { x := 0, y := 0, t := (8192 * K) % 2 ^ 32, p := 0 } := by
    rw [eventOfGroup, markersBefore_markerRun,
      show 5 * K = 5 * K + 0 by omega, byteAt_markerRun_last K 0,
      byteAt_markerRun_last K 1, byteAt_markerRun_last K 2, byteAt_markerRun_last K 3,
      byteAt_markerRun_last K 4]
    rw [show rawT 0 0 0 = 0 from rfl, Nat.zero_add]
    rfl
  rw [hev]

/-- C1 counterexample: in the buffer of 524288 = 2^19 marker groups followed
by one all-zero group, the final group is a non-marker with raw field 0
preceded by exactly 524288 markers, yet its output timestamp is 0, not
`0 + 524288 * 8192 = 2^32`: the uint32 `all_ts` array wraps. -/
theorem overflow_offset_timestamp_counterexample :
    binToArray ((List.replicate 524288 ([0, 240, 0, 0, 0] : List (Fin 256))).flatten
        ++ ([0, 0, 0, 0, 0] : List (Fin 256))) =
      .ok [{ x := 0, y := 0, t := 0, p := 0 }] ∧
    byteAt ((List.replicate 524288 ([0, 240, 0, 0, 0] : List (Fin 256))).flatten
        ++ ([0, 0, 0, 0, 0] : List (Fin 256))) (5 * 524288 + 1) ≠ 240 ∧
    markersBefore ((List.replicate 524288 ([0, 240, 0, 0, 0] : List (Fin 256))).flatten
        ++ ([0, 0, 0, 0, 0] : List (Fin 256))) 524288 = 524288 ∧
    rawT (byteAt ((List.replicate 524288 ([0, 240, 0, 0, 0] : List (Fin 256))).flatten
          ++ ([0, 0, 0, 0, 0] : List (Fin 256))) (5 * 524288 + 2))
        (byteAt ((List.replicate 524288 ([0, 240, 0, 0, 0] : List (Fin 256))).flatten
          ++ ([0, 0, 0, 0, 0] : List (Fin 256))) (5 * 524288 + 3))
        (byteAt ((List.replicate 524288 ([0, 240, 0, 0, 0] : List (Fin 256))).flatten
          ++ ([0, 0, 0, 0, 0] : List (Fin 256))) (5 * 524288 + 4)) = 0 ∧
    (0 : Nat) ≠ 0 + 524288 * 8192 := by
  refine ⟨?_, ?_, ?_, ?_, by norm_num⟩
  · rw [show (List.replicate 524288 ([0, 240, 0, 0, 0] : List (Fin 256))).flatten
        ++ ([0, 0, 0, 0, 0] : List (Fin 256)) = markerRun 524288 from rfl,
      markerRun_decode 524288]
    norm_num
  · rw [show (List.replicate 524288 ([0, 240, 0, 0, 0] : List (Fin 256))).flatten
        ++ ([0, 0, 0, 0, 0] : List (Fin 256)) = markerRun 524288 from rfl,
      byteAt_markerRun_last 524288 1]
    omega
  · rw [show (List.replicate 524288 ([0, 240, 0, 0, 0] : List (Fin 256))).flatten
        ++ ([0, 0, 0, 0, 0] : List (Fin 256)) = markerRun 524288 from rfl,
      markersBefore_markerRun 524288]
  · rw [show (List.replicate 524288 ([0, 240, 0, 0, 0] : List (Fin 256))).flatten
        ++ ([0, 0, 0, 0, 0] : List (Fin 256)) = markerRun 524288 from rfl,
      byteAt_markerRun_last 524288 2, byteAt_markerRun_last 524288 3,
      byteAt_markerRun_last 524288 4]
    rfl

/-! ### Appending one trailing byte to a slice -/

theorem strided5_append_singleton (l : List Nat) (a : Nat) :
    strided5 (l ++ [a]) = strided5 l ++ (if l.length % 5 = 0 then [a] else []) := by
  induction l using strided5_induction with
  | h0 => simp [strided5_nil, strided5_cons]
  | h1 x rest ih =>
    rw [List.cons_append, strided5_cons, strided5_cons]
    rcases Nat.lt_or_ge rest.length 4 with hlt | hge
    · have hd1 : (rest ++ [a]).drop 4 = [] := by
        apply List.drop_eq_nil_of_le
        simp
        omega
      have hd2 : rest.drop 4 = [] := by
        apply List.drop_eq_nil_of_le
        omega
      rw [hd1, hd2, strided5_nil, if_neg (by simp; omega)]
      simp
    · rw [List.drop_append_of_le_length hge, ih]
      by_cases hc : (rest.drop 4).length % 5 = 0
      · rw [if_pos hc, if_pos (by simp at hc ⊢; omega), List.cons_append]
      · rw [if_neg hc, if_neg (by simp at hc ⊢; omega)]
        simp

/-- C5 counterexample: the decoder raises on the 3-byte buffer `[0, 0, 0]`:
the length-0 `all_ts` array is fancy-indexed at position 0 (numpy
`IndexError`), so the decoder is not total and does not silently drop the
trailing bytes. -/
theorem decoder_total_counterexample :
    binToArray ([0, 0, 0] : List (Fin 256)) = .error NPError.indexError := by rfl

/-- C5 (amended): the decoder never raises when the buffer length is 0 or 1
modulo 5, and then equals the decode of the longest prefix whose length is a
multiple of 5 (one trailing byte is dropped); for the other residues it can
raise (e.g. `IndexError` on `[0, 0, 0]`). -/
theorem decoder_total_prefix (buf : List (Fin 256))
    (h : buf.length % 5 = 0 ∨ buf.length % 5 = 1) :
    ∃ evs, binToArray buf = .ok evs ∧
      binToArray (buf.take (5 * (buf.length / 5))) = .ok evs := by
  rcases h with h0 | h1
  · have htake : buf.take (5 * (buf.length / 5)) = buf := by
      rw [show 5 * (buf.length / 5) = buf.length by omega]
      exact List.take_length buf
    rw [htake]
    exact ⟨_, binToArray_char buf (by omega), binToArray_char buf (by omega)⟩
  · set m := 5 * (buf.length / 5) with hm
    set pre := buf.take m with hpre
    have hmlen : m ≤ buf.length := by omega
    have hprelen : pre.length = m := by rw [hpre, List.length_take]; omega
    have hbyte : ∀ k, k < m → byteAt pre k = byteAt buf k := by
      intro k hk
      rw [byteAt, byteAt, List.getD_eq_getElem?_getD, List.getD_eq_getElem?_getD, hpre,
        List.getElem?_take, if_pos hk]
    have hmapP : pre.map Fin.val = (buf.map Fin.val).take m := by
      rw [hpre, List.map_take]
    have hsplit : buf.map Fin.val = pre.map Fin.val ++ (buf.map Fin.val).drop m := by
      rw [hmapP, List.take_append_drop]
    obtain ⟨c, hc⟩ : ∃ c, (buf.map Fin.val).drop m = [c] := by
      apply List.length_eq_one.mp
      rw [List.length_drop, List.length_map]
      omega
    have hplen : (pre.map Fin.val).length = m := by rw [List.length_map, hprelen]
    have hslice : ∀ i, 1 ≤ i → i ≤ 4 →
        slice5 (buf.map Fin.val) i = slice5 (pre.map Fin.val) i := by
      intro i hi1 hi4
      rw [slice5, slice5]
      conv_lhs => rw [hsplit, hc]
      rcases Nat.eq_zero_or_pos m with hm0 | hmpos
      · have hp0 : pre.map Fin.val = [] := by
          apply List.eq_nil_of_length_eq_zero
          rw [hplen, hm0]
        rw [hp0, List.nil_append, List.drop_eq_nil_of_le (by simp; omega),
          List.drop_eq_nil_of_le (by simp)]
      · have hm5 : 5 ≤ m := by omega
        rw [List.drop_append_of_le_length (by omega), strided5_append_singleton,
          if_neg (by rw [List.length_drop, hplen]; omega), List.append_nil]
    have hY : allY (buf.map Fin.val) = allY (pre.map Fin.val) := by
      rw [allY, allY, hslice 1 (by omega) (by omega)]
    have htd : tdIdx buf = tdIdx pre := by rw [tdIdx, tdIdx, hY]
    refine ⟨_, binToArray_char buf (by omega), ?_⟩
    rw [binToArray_char pre (by rw [hprelen]; omega), htd]
    congr 1
    apply List.map_congr_left
    intro i hi
    have hin : i < m / 5 := by
      rw [tdIdx] at hi
      rcases (mem_whereNe _ _ _).mp hi with ⟨hlt, -⟩
      rw [allY, slice5_length_of_mod5 _ 1 (by rw [hplen]; omega) (by omega) (by omega),
        hplen] at hlt
      exact hlt
    have hb : ∀ j, j ≤ 4 → byteAt pre (5 * i + j) = byteAt buf (5 * i + j) := by
      intro j hj
      apply hbyte
      omega
    have hmb : markersBefore pre i = markersBefore buf i := by
      rw [markersBefore, markersBefore]
      apply List.countP_congr
      intro x hx
      rw [List.mem_range] at hx
      rw [hbyte (5 * x + 1) (by omega)]
    rw [eventOfGroup, eventOfGroup, hmb, hbyte (5 * i) (by omega), hb 1 (by omega),
      hb 2 (by omega), hb 3 (by omega), hb 4 (by omega)]

/-- C5 witness: the 6-byte buffer `[1,2,3,4,5,6]` decodes without error and
equals the decode of its 5-byte prefix. -/
theorem decoder_total_prefix_witness :
    ∃ evs, binToArray ([1, 2, 3, 4, 5, 6] : List (Fin 256)) = .ok evs ∧
      binToArray (([1, 2, 3, 4, 5, 6] : List (Fin 256)).take
        (5 * (([1, 2, 3, 4, 5, 6] : List (Fin 256)).length / 5))) = .ok evs :=
  decoder_total_prefix [1, 2, 3, 4, 5, 6] (by decide)

/-- C6 counterexample: two zero-marker groups with raw fields 1 then 0
decode to timestamps `[1, 0]`, which are not non-decreasing. -/
theorem timestamps_monotone_counterexample :
    binToArray ([0, 0, 0, 0, 1, 0, 0, 0, 0, 0] : List (Fin 256)) =
      .ok [{ x := 0, y := 0, t := 1, p := 0 }, { x := 0, y := 0, t := 0, p := 0 }] ∧
    ¬ ((1 : Nat) ≤ 0) :=
  ⟨by rfl, by decide⟩

/-- C6 (amended): output timestamps are non-decreasing provided the raw
23-bit fields of the non-marker groups are non-decreasing in group order and
the buffer has at most 523264 groups (so that the uint32 correction cannot
wrap); the decoder itself does not enforce monotonicity. -/
theorem timestamps_monotone (buf : List (Fin 256)) (h5 : buf.length % 5 = 0)
    (hsize : numGroups buf ≤ 523264)
    (hmono : ∀ j, j < numGroups buf → ∀ i, i ≤ j →
      byteAt buf (5 * i + 1) ≠ 240 → byteAt buf (5 * j + 1) ≠ 240 →
      rawT (byteAt buf (5 * i + 2)) (byteAt buf (5 * i + 3)) (byteAt buf (5 * i + 4)) ≤
        rawT (byteAt buf (5 * j + 2)) (byteAt buf (5 * j + 3)) (byteAt buf (5 * j + 4))) :
    ∃ evs, binToArray buf = .ok evs ∧
      ∀ r e1 e2, evs[r]? = some e1 → evs[r + 1]? = some e2 → e1.t ≤ e2.t := by
  rw [numGroups] at hsize hmono
  refine ⟨_, binToArray_char buf (by omega), ?_⟩
  intro r e1 e2 he1 he2
  rw [List.getElem?_map] at he1 he2
  obtain ⟨i1, hi1, he1v⟩ := Option.map_eq_some'.mp he1
  obtain ⟨i2, hi2, he2v⟩ := Option.map_eq_some'.mp he2
  have hm1 : i1 ∈ tdIdx buf := List.getElem?_mem hi1
  have hm2 : i2 ∈ tdIdx buf := List.getElem?_mem hi2
  have hlt : i1 < i2 := by
    have hp := whereNe_pairwise (allY (buf.map Fin.val)) 240
    rw [List.pairwise_iff_getElem] at hp
    rw [tdIdx] at hi1 hi2
    obtain ⟨hr1, hv1⟩ := List.getElem?_eq_some.mp hi1
    obtain ⟨hr2, hv2⟩ := List.getElem?_eq_some.mp hi2
    have hcmp := hp r (r + 1) hr1 hr2 (by omega)
    rw [hv1, hv2] at hcmp
    exact hcmp
  have hyD : ∀ j, (allY (buf.map Fin.val)).getD j 0 = byteAt buf (5 * j + 1) := by
    intro j
    rw [allY, slice5_raw_getD]
  have hlen : (buf.map Fin.val).length = buf.length := List.length_map _ _
  have ly : (allY (buf.map Fin.val)).length = buf.length / 5 := by
    rw [allY, slice5_length_of_mod5 _ 1 (by omega) (by omega) (by omega), hlen]
  have hfacts : ∀ i ∈ tdIdx buf, i < buf.length / 5 ∧ byteAt buf (5 * i + 1) ≠ 240 := by
    intro i hi
    rw [tdIdx] at hi
    rcases (mem_whereNe _ _ _).mp hi with ⟨ha, hb⟩
    rw [ly] at ha
    rw [hyD] at hb
    exact ⟨ha, hb⟩
  obtain ⟨hin2, hne2⟩ := hfacts i2 hm2
  obtain ⟨hin1, hne1⟩ := hfacts i1 hm1
  have hmb : markersBefore buf i1 ≤ markersBefore buf i2 := by
    rw [markersBefore, markersBefore]
    exact countP_range_prefix_le _ _ _ (by omega)
  have hmb2 : markersBefore buf i2 ≤ i2 := by
    rw [markersBefore]
    calc (List.range i2).countP _ ≤ (List.range i2).length := List.countP_le_length _
      _ = i2 := List.length_range i2
  have hraw1 := rawT_lt (byteAt buf (5 * i1 + 2)) (byteAt buf (5 * i1 + 3))
    (byteAt buf (5 * i1 + 4)) (byteAt_lt _ _) (byteAt_lt _ _)
  have hraw2 := rawT_lt (byteAt buf (5 * i2 + 2)) (byteAt buf (5 * i2 + 3))
    (byteAt buf (5 * i2 + 4)) (byteAt_lt _ _) (byteAt_lt _ _)
  have hm1lt : rawT (byteAt buf (5 * i1 + 2)) (byteAt buf (5 * i1 + 3))
      (byteAt buf (5 * i1 + 4)) + 8192 * markersBefore buf i1 < 2 ^ 32 := by omega
  have hm2lt : rawT (byteAt buf (5 * i2 + 2)) (byteAt buf (5 * i2 + 3))
      (byteAt buf (5 * i2 + 4)) + 8192 * markersBefore buf i2 < 2 ^ 32 := by omega
  have hr := hmono i2 hin2 i1 (by omega) hne1 hne2
  rw [← he1v, ← he2v, eventOfGroup, eventOfGroup]
  simp only []
  rw [Nat.mod_eq_of_lt hm1lt, Nat.mod_eq_of_lt hm2lt]
  omega

/-- C6 witness: three groups with raw fields 5, marker, 7: decode succeeds
and the two output timestamps `5 ≤ 7 + 8192` are non-decreasing. -/
theorem timestamps_monotone_witness :
    ∃ evs, binToArray ([0, 0, 0, 0, 5, 0, 240, 0, 0, 0, 0, 1, 0, 0, 7] : List (Fin 256)) =
        .ok evs ∧
      ∀ r e1 e2, evs[r]? = some e1 → evs[r + 1]? = some e2 → e1.t ≤ e2.t :=
  timestamps_monotone [0, 0, 0, 0, 5, 0, 240, 0, 0, 0, 0, 1, 0, 0, 7]
    (by decide) (by decide) (by decide)

/-! ### Membership bounds for the output fields -/

theorem mem_strided5 (l : List Nat) (x : Nat) (hx : x ∈ strided5 l) : x ∈ l := by
  induction l using strided5_induction with
  | h0 => rw [strided5_nil] at hx; simp at hx
  | h1 a rest ih =>
    rw [strided5_cons] at hx
    rcases List.mem_cons.mp hx with rfl | hx2
    · exact List.mem_cons_self _ _
    · exact List.mem_cons_of_mem _ (List.mem_of_mem_drop (ih hx2))

theorem mem_slice5_lt (buf : List (Fin 256)) (i x : Nat)
    (hx : x ∈ slice5 (buf.map Fin.val) i) : x < 256 := by
  rw [slice5] at hx
  have h2 := List.mem_of_mem_drop (mem_strided5 _ _ hx)
  obtain ⟨b, -, rfl⟩ := List.mem_map.mp h2
  exact b.isLt

theorem fancyIndex_ok_inv (a idx res : List Nat) (h : fancyIndex a idx = .ok res) :
    res = idx.map (fun i => a.getD i 0) ∧ ∀ i ∈ idx, i < a.length := by
  rw [fancyIndex] at h
  split_ifs at h with hc
  refine ⟨(Except.ok.inj h).symm, ?_⟩
  intro i hi
  rw [List.all_eq_true] at hc
  exact of_decide_eq_true (hc i hi)

/-- C7 counterexample: the single group `[100,100,0,0,0]` decodes to an
event with `x = y = 100`, violating the claimed `x < 34 ∧ y < 34` bound of
`sensor_size = (34, 34, 2)`: the decoder never clamps coordinates. -/
theorem spatial_bound_counterexample :
    binToArray ([100, 100, 0, 0, 0] : List (Fin 256)) =
      .ok [{ x := 100, y := 100, t := 0, p := 0 }] ∧
    ¬ (100 < sensorSize.1) ∧ ¬ (100 < sensorSize.2.1) :=
  ⟨by rfl, by decide, by decide⟩

/-- C7 (amended): whenever the decoder succeeds, every output event has
byte-valued coordinates `x < 256` and `y < 256` with `y ≠ 240`; the 34×34
sensor bound is a property of well-formed dataset files, not enforced by the
decoder. -/
theorem spatial_bound_bytes (buf : List (Fin 256)) (evs : List Event)
    (h : binToArray buf = .ok evs) :
    ∀ e ∈ evs, e.x < 256 ∧ e.y < 256 ∧ e.y ≠ 240 := by
  simp only [binToArray] at h
  split at h
  · exact absurd h (by simp)
  next ts0 hts =>
    split at h
    · exact absurd h (by simp)
    next ex hex =>
      split at h
      · exact absurd h (by simp)
      next ey hey =>
        split at h
        · exact absurd h (by simp)
        next et het =>
          split at h
          · exact absurd h (by simp)
          next ep hep =>
            have hevs : evs = makeStructuredArray ex ey et ep := (Except.ok.inj h).symm
            subst hevs
            intro e he
            rw [makeStructuredArray, List.mem_map] at he
            obtain ⟨q, hq, hqe⟩ := he
            obtain ⟨hqx, hq2⟩ := List.of_mem_zip hq
            obtain ⟨hqy, -⟩ := List.of_mem_zip hq2
            obtain ⟨hx1, hx2⟩ := fancyIndex_ok_inv _ _ _ hex
            obtain ⟨hy1, hy2⟩ := fancyIndex_ok_inv _ _ _ hey
            subst hx1
            subst hy1
            rw [List.mem_map] at hqx hqy
            obtain ⟨ix, hix, hqx2⟩ := hqx
            obtain ⟨iy, hiy, hqy2⟩ := hqy
            rw [← hqe]
            simp only []
            refine ⟨?_, ?_, ?_⟩
            · rw [← hqx2]
              apply mem_slice5_lt buf 0
              rw [show slice5 (buf.map Fin.val) 0 = allX (buf.map Fin.val) from rfl]
              have hb := hx2 ix hix
              rw [List.getD_eq_getElem _ _ hb]
              exact List.getElem_mem _
            · rw [← hqy2]
              apply mem_slice5_lt buf 1
              rw [show slice5 (buf.map Fin.val) 1 = allY (buf.map Fin.val) from rfl]
              have hb := hy2 iy hiy
              rw [List.getD_eq_getElem _ _ hb]
              exact List.getElem_mem _
            · rw [← hqy2]
              rcases (mem_whereNe _ _ _).mp hiy with ⟨-, hne⟩
              exact hne

/-- C7 witness: the concrete 5-byte buffer `[1,2,3,4,5]` decodes to the one
event `(1, 2, 197637, 0)`, whose coordinates satisfy the byte bounds and
`y ≠ 240`. -/
theorem spatial_bound_bytes_witness :
    ({ x := 1, y := 2, t := 197637, p := 0 } : Event).x < 256 ∧
    ({ x := 1, y := 2, t := 197637, p := 0 } : Event).y < 256 ∧
    ({ x := 1, y := 2, t := 197637, p := 0 } : Event).y ≠ 240 :=
  spatial_bound_bytes [1, 2, 3, 4, 5] [{ x := 1, y := 2, t := 197637, p := 0 }] (by rfl)
    { x := 1, y := 2, t := 197637, p := 0 } (by simp)

/-- C8: `_get_target` returns the integer parsed from the second-to-last
slash-delimited path segment, and fails (the `IndexError` / `ValueError` that
the spec names `InvalidLabelFormat`) exactly when the path has fewer than two
segments or that segment does not parse as an integer. -/
theorem label_extraction (fname : String) :
    (∀ v : Int, 2 ≤ (splitSlash fname.toList).length →
      pythonInt ((splitSlash fname.toList).getD ((splitSlash fname.toList).length - 2) [])
        = some v →
      getTarget fname = .ok v) ∧
    ((splitSlash fname.toList).length < 2 ∨
      pythonInt ((splitSlash fname.toList).getD ((splitSlash fname.toList).length - 2) [])
        = none →
      (getTarget fname).isOk = false) := by
  constructor
  · intro v h2 hp
    simp only [getTarget]
    rw [if_pos h2, hp]
  · intro hor
    rcases hor with hlt | hnone
    · simp only [getTarget]
      rw [if_neg (by omega)]
      rfl
    · by_cases h2 : 2 ≤ (splitSlash fname.toList).length
      · simp only [getTarget]
        rw [if_pos h2, hnone]
        rfl
      · simp only [getTarget]
        rw [if_neg h2]
        rfl

/-- C8 witness: the path of the claim example, `"train/7/00123.bin"`, yields
label 7. -/
theorem label_extraction_witness : getTarget "train/7/00123.bin" = .ok 7 :=
  (label_extraction "train/7/00123.bin").1 7 (by decide) (by decide)

/-- C9: the saccade filter returns exactly the subsequence of events whose
timestamp exceeds 100000 (order-preserving sublist; an event survives iff it
was present and has `t > 100000`, with multiplicities); and of two events
with `t = 50000` and `t = 150000` only the second survives. -/
theorem saccade_filter_subsequence :
    (∀ events : List Event,
      (saccadeFilter events).Sublist events ∧
      (∀ e, e ∈ saccadeFilter events ↔ e ∈ events ∧ 100000 < e.t) ∧
      (∀ e, (saccadeFilter events).count e =
        if 100000 < e.t then events.count e else 0)) ∧
    (∀ a b : Event, a.t = 50000 → b.t = 150000 → saccadeFilter [a, b] = [b]) := by
  constructor
  · intro events
    refine ⟨List.filter_sublist _, ?_, ?_⟩
    · intro e
      rw [saccadeFilter, List.mem_filter]
      simp
    · intro e
      rw [saccadeFilter]
      by_cases he : 100000 < e.t
      · rw [if_pos he, List.count_filter (by simpa using he)]
      · rw [if_neg he]
        apply List.count_eq_zero.mpr
        rw [List.mem_filter]
        rintro ⟨-, hp⟩
        simp at hp
        omega
  · intro a b ha hb
    rw [saccadeFilter, List.filter_cons, List.filter_cons, List.filter_nil]
    rw [if_neg (by simp [ha]), if_pos (by simp [hb])]

/-- C9 witness: the concrete two-event scenario of the claim. -/
theorem saccade_filter_subsequence_witness :
    saccadeFilter [{ x := 1, y := 2, t := 50000, p := 0 },
        { x := 3, y := 4, t := 150000, p := 1 }] =
      [{ x := 3, y := 4, t := 150000, p := 1 }] :=
  saccade_filter_subsequence.2 _ _ rfl rfl

/-- C10: the decoder is a pure function of the byte buffer alone: decoding
equal buffers yields identical results (including the error outcomes), with
no dependence on any other state. -/
theorem decode_deterministic (b1 b2 : List (Fin 256)) (h : b1 = b2) :
    binToArray b1 = binToArray b2 := by rw [h]

/-- C10 witness: re-decoding the concrete buffer `[1,2,3,4,5]` gives the
identical result. -/
theorem decode_deterministic_witness :
    binToArray ([1, 2, 3, 4, 5] : List (Fin 256)) =
      binToArray ([1, 2, 3, 4, 5] : List (Fin 256)) :=
  decode_deterministic [1, 2, 3, 4, 5] [1, 2, 3, 4, 5] rfl
